import Mathlib

/-!
Verification of the `prev-iter` crate (`src/lib.rs`): the `PrevPeekable`
iterator adapter, which wraps an iterator and exposes `prev`, `prev_peek`
and `peek` alongside the standard `next`.

The underlying Rust iterator is modelled as a `List α` of the items it has
yet to yield; `Clone` on items is modelled as the identity on values, and a
returned `&T` reference is modelled by the value it points at.  The
`Peekable` wrapper from the Rust standard library (the field
`iterator: Peekable<I>` of `PrevPeekable`) is modelled faithfully with its
one-slot buffer: `peeked = none` means nothing buffered, `peeked = some v`
means a buffered result `v` of a call to the raw iterator (so
`some none` records a buffered end-of-iteration answer).
-/

namespace PrevIter

/-- Model of `std::iter::Peekable<I>`: a one-slot buffer in front of a raw
iterator, the raw iterator being the list of items it has not yet yielded. -/
structure Peekable (α : Type) where
  peeked : Option (Option α)
  iter : List α
deriving DecidableEq, Repr

namespace Peekable

/-- Model of `Peekable::next`: take the buffered answer if present,
otherwise pull from the raw iterator. -/
def next (p : Peekable α) : Option α × Peekable α :=
  match p.peeked with
  | some v => (v, { p with peeked := none })
  | none =>
    match p.iter with
    | [] => (none, p)
    | x :: xs => (some x, { p with iter := xs })

/-- Model of `Peekable::peek`: if nothing is buffered, pull one answer from
the raw iterator into the buffer (buffering even the end-of-iteration
answer); return the buffered answer. -/
def peek (p : Peekable α) : Option α × Peekable α :=
  match p.peeked with
  | some v => (v, p)
  | none =>
    match p.iter with
    | [] => (none, { p with peeked := some none })
    | x :: xs => (some x, { peeked := some (some x), iter := xs })

/-- Items that will still come out of the `Peekable`: the buffered item, if
any, followed by the raw iterator's remaining items. -/
def pending (p : Peekable α) : List α :=
  match p.peeked with
  | some (some x) => x :: p.iter
  | _ => p.iter

/-- One if an actual item sits in the buffer, zero otherwise. -/
def bVal (p : Peekable α) : Nat :=
  match p.peeked with
  | some (some _) => 1
  | _ => 0

end Peekable

/-- Model of the `PrevPeekable<I>` struct of `src/lib.rs`: the wrapped
`Peekable`, the `prev` and `current` slots, and the `finished` flag. -/
structure PrevPeekable (α : Type) where
  iterator : Peekable α
  prev : Option α
  current : Option α
  finished : Bool
deriving DecidableEq, Repr

namespace PrevPeekable

/-- Model of `PrevPeekable::new`: wrap the iterator in a fresh `Peekable`
(empty buffer); `prev` and `current` start as `None`, `finished` as
`false`.  Nothing is pulled from the iterator. -/
def new (l : List α) : PrevPeekable α :=
  { iterator := { peeked := none, iter := l }, prev := none, current := none,
    finished := false }

/-- Model of `PrevPeekable::peek`: delegate to `Peekable::peek` on the
wrapped iterator (which mutates the wrapped iterator through `&mut self`). -/
def peek (s : PrevPeekable α) : Option α × PrevPeekable α :=
  let r := Peekable.peek s.iterator
  (r.1, { s with iterator := r.2 })

/-- Model of `PrevPeekable::next` (the `Iterator` impl): if
`self.iterator.peek()` answers with an item, set
`prev ← current, current ← self.iterator.next()` and return
`self.current.clone()`; otherwise, if not yet `finished`, do the same
replacement (pulling the buffered end answer) and set `finished`; in every
remaining case return `None`. -/
def next (s : PrevPeekable α) : Option α × PrevPeekable α :=
  let r := Peekable.peek s.iterator
  match r.1 with
  | some _ =>
    let r2 := Peekable.next r.2
    let st : PrevPeekable α :=
      { iterator := r2.2, prev := s.current, current := r2.1,
        finished := s.finished }
    (st.current, st)
  | none =>
    if s.finished = false then
      let r2 := Peekable.next r.2
      (none, { iterator := r2.2, prev := s.current, current := r2.1,
               finished := true })
    else
      (none, { s with iterator := r.2 })

/-- Model of `PrevPeekable::prev`, which returns `self.prev.clone()`;
`Clone` on item values is the identity in this model. -/
def prevClone (s : PrevPeekable α) : Option α :=
  s.prev

/-- Model of `PrevPeekable::prev_peek`, which returns `self.prev.as_ref()`;
the reference is modelled by the value it points at. -/
def prev_peek (s : PrevPeekable α) : Option α :=
  s.prev

end PrevPeekable

open PrevPeekable

/-- State of the adapter after `i` calls to `next` on a freshly constructed
`PrevPeekable` over the list `l`. -/
def stateAfter (l : List α) : Nat → PrevPeekable α
  | 0 => PrevPeekable.new l
  | i + 1 => (PrevPeekable.next (stateAfter l i)).2

/-- Value returned by the `(i+1)`-th call to `next` on a freshly
constructed `PrevPeekable` over `l`. -/
def outAt (l : List α) (i : Nat) : Option α :=
  (PrevPeekable.next (stateAfter l i)).1

/-- Number of items that have been consumed from the raw underlying
iterator, for an adapter constructed over `l`. -/
def consumedFrom (l : List α) (s : PrevPeekable α) : Nat :=
  l.length - s.iterator.iter.length

/-- Sanity check mirroring the crate's `test_next` / `test_prev`. -/
example :
    outAt [1, 2, 3] 0 = some 1 ∧ outAt [1, 2, 3] 1 = some 2 ∧
      outAt [1, 2, 3] 2 = some 3 ∧ outAt [1, 2, 3] 3 = none ∧
      outAt [1, 2, 3] 4 = none := by decide

example :
    prevClone (stateAfter [1, 2] 0) = none ∧
      prevClone (stateAfter [1, 2] 1) = none ∧
      prevClone (stateAfter [1, 2] 2) = some 1 ∧
      prevClone (stateAfter [1, 2] 3) = some 2 ∧
      prevClone (stateAfter [1, 2] 4) = some 2 := by decide

example :
    (PrevPeekable.peek (PrevPeekable.new [1, 2])).1 = some 1 ∧
      (PrevPeekable.peek (stateAfter [1, 2] 1)).1 = some 2 ∧
      (PrevPeekable.peek (stateAfter [1, 2] 2)).1 = none := by decide

/-- Description of the adapter state after `i ≤ l.length` calls to `next`:
the buffer is empty, `i` items have been pulled from the raw iterator,
`current` is the item just returned and `prev` the one before it. -/
def midState (l : List α) (i : Nat) : PrevPeekable α :=
  { iterator := { peeked := none, iter := l.drop i },
    prev := if 2 ≤ i then l[i - 2]? else none,
    current := if 1 ≤ i then l[i - 1]? else none,
    finished := false }

lemma stateAfter_eq_midState (l : List α) :
    ∀ i, i ≤ l.length → stateAfter l i = midState l i := by
  intro i
  induction i with
  | zero =>
    intro _
    simp [stateAfter, PrevPeekable.new, midState]
  | succ i ih =>
    intro h
    have hi : i < l.length := Nat.lt_of_succ_le h
    have hdrop : l.drop i = l[i] :: l.drop (i + 1) := List.drop_eq_getElem_cons hi
    have hs : stateAfter l (i + 1) = (PrevPeekable.next (midState l i)).2 := by
      rw [stateAfter, ih (Nat.le_of_lt hi)]
    rw [hs]
    simp only [PrevPeekable.next, midState, Peekable.peek, Peekable.next, hdrop]
    have hget : l[i]? = some l[i] := List.getElem?_eq_getElem hi
    have h12 : i + 1 - 2 = i - 1 := by omega
    rcases Nat.eq_zero_or_pos i with h0 | h1
    · subst h0; simp [hget]
    · simp [hget, h12, Nat.le_of_lt h1, h1, Nat.succ_le_succ h1]
      omega

/-- Description of the adapter state right after the exhausting call to
`next` (call number `l.length + 1`): `current` has been cleared, `prev`
holds the last item of `l`, and `finished` is set. -/
def exhaustedState (l : List α) : PrevPeekable α :=
  { iterator := { peeked := none, iter := [] },
    prev := if 1 ≤ l.length then l[l.length - 1]? else none,
    current := none, finished := true }

/-- Description of the adapter state after every call past the exhausting
one: identical to `exhaustedState` except that the buffer now caches the
end-of-iteration answer. -/
def frozenState (l : List α) : PrevPeekable α :=
  { iterator := { peeked := some none, iter := [] },
    prev := if 1 ≤ l.length then l[l.length - 1]? else none,
    current := none, finished := true }

lemma stateAfter_length_succ (l : List α) :
    stateAfter l (l.length + 1) = exhaustedState l := by
  rw [stateAfter, stateAfter_eq_midState l l.length (Nat.le_refl _)]
  simp [midState, exhaustedState, PrevPeekable.next, Peekable.peek,
    Peekable.next, List.drop_length]

lemma next_exhaustedState (l : List α) :
    PrevPeekable.next (exhaustedState l) = (none, frozenState l) := by
  simp [exhaustedState, frozenState, PrevPeekable.next, Peekable.peek,
    Peekable.next]

lemma next_frozenState (l : List α) :
    PrevPeekable.next (frozenState l) = (none, frozenState l) := by
  simp [frozenState, PrevPeekable.next, Peekable.peek, Peekable.next]

lemma stateAfter_frozen (l : List α) :
    ∀ j, l.length + 2 ≤ j → stateAfter l j = frozenState l := by
  intro j hj
  obtain ⟨k, rfl⟩ : ∃ k, j = l.length + 2 + k := ⟨j - (l.length + 2), by omega⟩
  induction k with
  | zero =>
    show stateAfter l (l.length + 1 + 1) = frozenState l
    rw [stateAfter, stateAfter_length_succ, next_exhaustedState]
  | succ k ih =>
    show stateAfter l (l.length + 2 + k + 1) = frozenState l
    rw [stateAfter, ih (by omega), next_frozenState]

lemma outAt_lt (l : List α) (i : Nat) (hi : i < l.length) :
    outAt l i = some l[i] := by
  rw [outAt, stateAfter_eq_midState l i (Nat.le_of_lt hi)]
  have hdrop : l.drop i = l[i] :: l.drop (i + 1) := List.drop_eq_getElem_cons hi
  simp only [midState, hdrop]
  simp [PrevPeekable.next, Peekable.peek, Peekable.next]

lemma outAt_ge (l : List α) (i : Nat) (hi : l.length ≤ i) :
    outAt l i = none := by
  rcases Nat.lt_or_ge i (l.length + 1) with h | h
  · have hEq : i = l.length := by omega
    rw [outAt, hEq, stateAfter_eq_midState l l.length (Nat.le_refl _)]
    simp [midState, PrevPeekable.next, Peekable.peek, Peekable.next,
      List.drop_length]
  · rcases Nat.lt_or_ge i (l.length + 2) with h2 | h2
    · have hEq : i = l.length + 1 := by omega
      rw [outAt, hEq, stateAfter_length_succ]
      rw [show PrevPeekable.next (exhaustedState l) = (none, frozenState l)
        from next_exhaustedState l]
    · rw [outAt, stateAfter_frozen l i h2]
      rw [show PrevPeekable.next (frozenState l) = (none, frozenState l)
        from next_frozenState l]

/-- The operations a caller can perform on the adapter after construction.
The queries `prev` and `prev_peek` take `&self` in the source and cannot
change the state, but they are kept in the alphabet so that call sequences
range over the full public interface. -/
inductive Op
  | callNext
  | callPeek
  | callPrev
  | callPrevPeek
deriving DecidableEq, Repr

/-- State reached after performing one operation. -/
def step (s : PrevPeekable α) : Op → PrevPeekable α
  | Op.callNext => (PrevPeekable.next s).2
  | Op.callPeek => (PrevPeekable.peek s).2
  | Op.callPrev => s
  | Op.callPrevPeek => s

/-- State reached after performing a sequence of operations. -/
def run (s : PrevPeekable α) : List Op → PrevPeekable α
  | [] => s
  | op :: ops => run (step s op) ops

/-- One if the operation is a `next` call that returns an item in state
`s`, zero otherwise. -/
def opCount (s : PrevPeekable α) : Op → Nat
  | Op.callNext => if ((PrevPeekable.next s).1).isSome then 1 else 0
  | _ => 0

/-- State reached after a sequence of operations, paired with the number of
`next` calls in the sequence that returned an item. -/
def runCount (s : PrevPeekable α) : List Op → PrevPeekable α × Nat
  | [] => (s, 0)
  | op :: ops =>
    let r := runCount (step s op) ops
    (r.1, opCount s op + r.2)

/-- Invariant of every state reachable from an adapter over the empty
list: the raw iterator is empty, the buffer holds at most the
end-of-iteration answer, and both slots are empty. -/
def emptyInv (s : PrevPeekable α) : Prop :=
  s.iterator.iter = [] ∧
    (s.iterator.peeked = none ∨ s.iterator.peeked = some none) ∧
    s.prev = none ∧ s.current = none

lemma emptyInv_step (s : PrevPeekable α) (h : emptyInv s) (op : Op) :
    emptyInv (step s op) := by
  obtain ⟨⟨pk, itr⟩, pv, cu, fin⟩ := s
  obtain ⟨h1, h2, h3, h4⟩ := h
  dsimp only at h1 h2 h3 h4
  subst h1 h3 h4
  rcases h2 with h2 | h2 <;> subst h2 <;> rcases op <;> rcases fin <;>
    simp [step, emptyInv, PrevPeekable.next, PrevPeekable.peek,
      Peekable.peek, Peekable.next]

lemma emptyInv_run (ops : List Op) :
    ∀ s : PrevPeekable α, emptyInv s → emptyInv (run s ops) := by
  induction ops with
  | nil => intro s h; exact h
  | cons op ops ih =>
    intro s h
    exact ih (step s op) (emptyInv_step s h op)

lemma emptyInv_outputs (s : PrevPeekable α) (h : emptyInv s) :
    (PrevPeekable.next s).1 = none ∧ (PrevPeekable.peek s).1 = none ∧
      PrevPeekable.prevClone s = none ∧ PrevPeekable.prev_peek s = none := by
  obtain ⟨⟨pk, itr⟩, pv, cu, fin⟩ := s
  obtain ⟨h1, h2, h3, h4⟩ := h
  dsimp only at h1 h2 h3 h4
  subst h1 h3 h4
  rcases h2 with h2 | h2 <;> subst h2 <;> rcases fin <;>
    simp [PrevPeekable.next, PrevPeekable.peek, Peekable.peek,
      Peekable.next, PrevPeekable.prevClone, PrevPeekable.prev_peek]

lemma next_measure (s : PrevPeekable α) :
    (PrevPeekable.next s).2.iterator.iter.length
        + Peekable.bVal (PrevPeekable.next s).2.iterator
        + (if ((PrevPeekable.next s).1).isSome then 1 else 0)
      = s.iterator.iter.length + Peekable.bVal s.iterator := by
  obtain ⟨⟨pk, itr⟩, pv, cu, fin⟩ := s
  rcases pk with _ | v
  · rcases itr with _ | ⟨x, xs⟩ <;> rcases fin <;>
      simp [PrevPeekable.next, Peekable.peek, Peekable.next, Peekable.bVal]
  · rcases v with _ | x <;> rcases fin <;>
      simp [PrevPeekable.next, Peekable.peek, Peekable.next, Peekable.bVal]

lemma peek_measure (s : PrevPeekable α) :
    (PrevPeekable.peek s).2.iterator.iter.length
        + Peekable.bVal (PrevPeekable.peek s).2.iterator
      = s.iterator.iter.length + Peekable.bVal s.iterator := by
  obtain ⟨⟨pk, itr⟩, pv, cu, fin⟩ := s
  rcases pk with _ | v
  · rcases itr with _ | ⟨x, xs⟩ <;>
      simp [PrevPeekable.peek, Peekable.peek, Peekable.bVal]
  · rcases v with _ | x <;>
      simp [PrevPeekable.peek, Peekable.peek, Peekable.bVal]

lemma runCount_measure (ops : List Op) :
    ∀ s : PrevPeekable α,
      (runCount s ops).1.iterator.iter.length
          + Peekable.bVal (runCount s ops).1.iterator + (runCount s ops).2
        = s.iterator.iter.length + Peekable.bVal s.iterator := by
  induction ops with
  | nil => intro s; simp [runCount]
  | cons op ops ih =>
    intro s
    have hstep :
        (step s op).iterator.iter.length + Peekable.bVal (step s op).iterator
            + opCount s op
          = s.iterator.iter.length + Peekable.bVal s.iterator := by
      rcases op
      case callNext => exact next_measure s
      case callPeek => simpa [step, opCount] using peek_measure s
      case callPrev => simp [step, opCount]
      case callPrevPeek => simp [step, opCount]
    calc (runCount s (op :: ops)).1.iterator.iter.length
          + Peekable.bVal (runCount s (op :: ops)).1.iterator
          + (runCount s (op :: ops)).2
        = (runCount (step s op) ops).1.iterator.iter.length
            + Peekable.bVal (runCount (step s op) ops).1.iterator
            + (runCount (step s op) ops).2 + opCount s op := by
          simp [runCount]; omega
      _ = (step s op).iterator.iter.length + Peekable.bVal (step s op).iterator
            + opCount s op := by
          rw [ih (step s op)]
      _ = s.iterator.iter.length + Peekable.bVal s.iterator := hstep

lemma bVal_le_one (p : Peekable α) : Peekable.bVal p ≤ 1 := by
  obtain ⟨pk, itr⟩ := p
  rcases pk with _ | v
  · simp [Peekable.bVal]
  · rcases v with _ | x <;> simp [Peekable.bVal]

/-- Claim C1 (confirmed): wrapping a non-empty finite sequence `l`, the
first `l.length` calls to `next` return exactly the elements of `l` in
order, each present, and the call after the last one, and every call after
that, returns `none`: the `(i+1)`-th call returns `l[i]?`. -/
theorem c1_next_yields_source_in_order (l : List α) (i : Nat)
    (h : 0 < l.length) : outAt l i = l[i]? := by
  rcases Nat.lt_or_ge i l.length with hi | hi
  · rw [outAt_lt l i hi, List.getElem?_eq_getElem hi]
  · rw [outAt_ge l i hi, List.getElem?_eq_none hi]

/-- Witness for C1 at the sequence `[5, 7]`, second call. -/
theorem c1_next_yields_source_in_order_witness :
    0 < ([5, 7] : List Nat).length ∧ outAt ([5, 7] : List Nat) 1 = [5, 7][1]? :=
  ⟨by decide, c1_next_yields_source_in_order [5, 7] 1 (by decide)⟩

/-- Claim C2 (confirmed): after the `i`-th `next` call, for `2 ≤ i ≤ n`,
`prev` returns element `i - 2` of the source, which is the value the
`(i-1)`-th call returned; and after the 1st call `prev` returns `none`. -/
theorem c2_prev_trails_next_by_one (l : List α) (i : Nat) (h2 : 2 ≤ i)
    (hn : i ≤ l.length) :
    prevClone (stateAfter l i) = l[i - 2]? ∧
      prevClone (stateAfter l i) = outAt l (i - 2) ∧
      prevClone (stateAfter l 1) = none := by
  have hi2 : i - 2 < l.length := by omega
  have hmid := stateAfter_eq_midState l i hn
  have hone : (1 : Nat) ≤ l.length := by omega
  have hmid1 := stateAfter_eq_midState l 1 hone
  refine ⟨?_, ?_, ?_⟩
  · rw [hmid]; simp [midState, prevClone, h2]
  · rw [hmid, outAt_lt l (i - 2) hi2]
    simp [midState, prevClone, h2, List.getElem?_eq_getElem hi2]
  · rw [hmid1]; simp [midState, prevClone]

/-- Witness for C2 at the sequence `[3, 4, 5]`, third call. -/
theorem c2_prev_trails_next_by_one_witness :
    2 ≤ 3 ∧ 3 ≤ ([3, 4, 5] : List Nat).length ∧
      (prevClone (stateAfter ([3, 4, 5] : List Nat) 3) = [3, 4, 5][1]? ∧
        prevClone (stateAfter ([3, 4, 5] : List Nat) 3) = outAt [3, 4, 5] 1 ∧
        prevClone (stateAfter ([3, 4, 5] : List Nat) 1) = none) :=
  ⟨by decide, by decide, c2_prev_trails_next_by_one [3, 4, 5] 3 (by decide) (by decide)⟩

/-- Claim C3 is false as stated: for the source `[1, 2]` (so `n = 2`),
immediately after the 2nd `next` call `prev` returns `some 1` rather than
the last element `some 2`, and `current` is `some 2` rather than `none`;
the state the claim describes is only reached one call later. -/
theorem c3_counterexample :
    ¬ (prevClone (stateAfter ([1, 2] : List Nat) 2) = some 2 ∧
        (stateAfter ([1, 2] : List Nat) 2).current = none) := by decide

/-- Claim C3 (amended): after the `(n+1)`-th `next` call — the first call
past the end — and after every subsequent call, `prev` returns the last
element of the source forever, `current` is `none` and stays `none`, and
post-exhaustion calls never change `prev` or `current`. -/
theorem c3_prev_frozen_after_exhaustion (l : List α) (j : Nat)
    (h : 0 < l.length) (hj : l.length + 1 ≤ j) :
    prevClone (stateAfter l j) = l[l.length - 1]? ∧
      (stateAfter l j).current = none ∧
      (stateAfter l j).prev = (stateAfter l (l.length + 1)).prev ∧
      (stateAfter l j).current = (stateAfter l (l.length + 1)).current := by
  have hone : (1 : Nat) ≤ l.length := h
  have hxp : stateAfter l (l.length + 1) = exhaustedState l :=
    stateAfter_length_succ l
  rcases Nat.lt_or_ge j (l.length + 2) with hsmall | hbig
  · have hEq : j = l.length + 1 := by omega
    rw [hEq, hxp]
    simp [exhaustedState, prevClone, hone]
  · rw [stateAfter_frozen l j hbig, hxp]
    simp [frozenState, exhaustedState, prevClone, hone]

/-- Witness for the amended C3 at the sequence `[1, 2]`, fourth call. -/
theorem c3_prev_frozen_after_exhaustion_witness :
    0 < ([1, 2] : List Nat).length ∧ ([1, 2] : List Nat).length + 1 ≤ 4 ∧
      (prevClone (stateAfter ([1, 2] : List Nat) 4) = [1, 2][1]? ∧
        (stateAfter ([1, 2] : List Nat) 4).current = none ∧
        (stateAfter ([1, 2] : List Nat) 4).prev
          = (stateAfter ([1, 2] : List Nat) 3).prev ∧
        (stateAfter ([1, 2] : List Nat) 4).current
          = (stateAfter ([1, 2] : List Nat) 3).current) :=
  ⟨by decide, by decide,
    c3_prev_frozen_after_exhaustion [1, 2] 4 (by decide) (by decide)⟩

/-- Claim C4 is false as stated: constructing over `[1, 2, 3]` consumes
nothing from the source (`consumedFrom` is `0`, not `1`) and leaves
`current` empty rather than holding the first element. -/
theorem c4_counterexample :
    ¬ ((PrevPeekable.new ([1, 2, 3] : List Nat)).current = some 1 ∧
        consumedFrom [1, 2, 3] (PrevPeekable.new ([1, 2, 3] : List Nat)) = 1) := by
  decide

/-- Claim C4 (amended): construction is lazy, not an eager prefetch — for
every non-empty source, immediately after construction and before any
`next` call, zero items have been consumed from the underlying source, the
`current` slot is empty, and `prev` is empty. -/
theorem c4_construction_is_lazy (l : List α) (h : l ≠ []) :
    consumedFrom l (PrevPeekable.new l) = 0 ∧
      (PrevPeekable.new l).current = none ∧
      (PrevPeekable.new l).prev = none := by
  simp [consumedFrom, PrevPeekable.new]

/-- Witness for the amended C4 at the sequence `[1, 2, 3]`. -/
theorem c4_construction_is_lazy_witness :
    ([1, 2, 3] : List Nat) ≠ [] ∧
      (consumedFrom [1, 2, 3] (PrevPeekable.new ([1, 2, 3] : List Nat)) = 0 ∧
        (PrevPeekable.new ([1, 2, 3] : List Nat)).current = none ∧
        (PrevPeekable.new ([1, 2, 3] : List Nat)).prev = none) :=
  ⟨by decide, c4_construction_is_lazy [1, 2, 3] (by decide)⟩

/-- Claim C5 is false as stated: after one `next` call on `[1, 2]` the
`current` slot is present (it holds `some 1`), yet the following `next`
call does not return that old `current` — it returns `some 2`. -/
theorem c5_counterexample :
    (stateAfter ([1, 2] : List Nat) 1).current = some 1 ∧
      ¬ ((PrevPeekable.next (stateAfter ([1, 2] : List Nat) 1)).1
          = (stateAfter ([1, 2] : List Nat) 1).current) := by decide

/-- Claim C5 (amended): in every state where the adapter is not finished
(which covers every reachable state whose `current` slot is present), a
`next` call sets `prev` to the value `current` held before the call, and
the value it returns is the new `current` — the item freshly pulled from
the source, present exactly when the source had one — not the old
`current`. -/
theorem c5_next_shifts_current_into_prev (s : PrevPeekable α)
    (h : s.finished = false) :
    (PrevPeekable.next s).2.prev = s.current ∧
      (PrevPeekable.next s).1 = (PrevPeekable.next s).2.current := by
  obtain ⟨⟨pk, itr⟩, pv, cu, fin⟩ := s
  dsimp only at h
  subst h
  rcases pk with _ | v
  · rcases itr with _ | ⟨x, xs⟩ <;>
      simp [PrevPeekable.next, Peekable.peek, Peekable.next]
  · rcases v with _ | x <;>
      simp [PrevPeekable.next, Peekable.peek, Peekable.next]

/-- Witness for the amended C5 in the state after one `next` call on
`[1, 2]`. -/
theorem c5_next_shifts_current_into_prev_witness :
    (stateAfter ([1, 2] : List Nat) 1).finished = false ∧
      ((PrevPeekable.next (stateAfter ([1, 2] : List Nat) 1)).2.prev
          = (stateAfter ([1, 2] : List Nat) 1).current ∧
        (PrevPeekable.next (stateAfter ([1, 2] : List Nat) 1)).1
          = (PrevPeekable.next (stateAfter ([1, 2] : List Nat) 1)).2.current) :=
  ⟨by decide, c5_next_shifts_current_into_prev (stateAfter [1, 2] 1) (by decide)⟩

/-- Claim C6 is false as stated: on a freshly constructed adapter over
`[1, 2]`, one `peek` call changes the adapter state (it fills the
`Peekable` buffer) and consumes one item from the raw underlying source,
not zero. -/
theorem c6_counterexample :
    (PrevPeekable.peek (PrevPeekable.new ([1, 2] : List Nat))).2
        ≠ PrevPeekable.new ([1, 2] : List Nat) ∧
      consumedFrom [1, 2]
          (PrevPeekable.peek (PrevPeekable.new ([1, 2] : List Nat))).2 = 1 := by
  decide

/-- Claim C6 (amended): `peek` never changes `prev`, `current`, `finished`,
or the sequence of items still to be yielded; it pulls at most one item
from the raw underlying source into the internal lookahead buffer, and a
repeated `peek` returns the same value and leaves the state exactly as it
was (idempotent), so no number of consecutive peeks consumes more than one
item. -/
theorem c6_peek_preserves_observable_state (s : PrevPeekable α) :
    (PrevPeekable.peek s).2.prev = s.prev ∧
      (PrevPeekable.peek s).2.current = s.current ∧
      (PrevPeekable.peek s).2.finished = s.finished ∧
      Peekable.pending (PrevPeekable.peek s).2.iterator
        = Peekable.pending s.iterator ∧
      s.iterator.iter.length ≤ (PrevPeekable.peek s).2.iterator.iter.length + 1 ∧
      PrevPeekable.peek (PrevPeekable.peek s).2
        = ((PrevPeekable.peek s).1, (PrevPeekable.peek s).2) := by
  obtain ⟨⟨pk, itr⟩, pv, cu, fin⟩ := s
  rcases pk with _ | v
  · rcases itr with _ | ⟨x, xs⟩ <;>
      simp [PrevPeekable.peek, Peekable.peek, Peekable.pending]
  · rcases v with _ | x <;>
      simp [PrevPeekable.peek, Peekable.peek, Peekable.pending]

/-- Claim C7 (confirmed): in every state, `peek` returns a value exactly
when the immediately following `next` call would, and it is the same value
— both for `next` run on the original state and for `next` run after the
`peek`; and consecutive peeks with no intervening `next` all return the
same value without changing the state. -/
theorem c7_peek_predicts_next (s : PrevPeekable α) :
    (PrevPeekable.peek s).1 = (PrevPeekable.next s).1 ∧
      (PrevPeekable.next (PrevPeekable.peek s).2).1 = (PrevPeekable.peek s).1 ∧
      PrevPeekable.peek (PrevPeekable.peek s).2
        = ((PrevPeekable.peek s).1, (PrevPeekable.peek s).2) := by
  obtain ⟨⟨pk, itr⟩, pv, cu, fin⟩ := s
  rcases pk with _ | v
  · rcases itr with _ | ⟨x, xs⟩ <;> rcases fin <;>
      simp [PrevPeekable.peek, PrevPeekable.next, Peekable.peek, Peekable.next]
  · rcases v with _ | x <;> rcases fin <;>
      simp [PrevPeekable.peek, PrevPeekable.next, Peekable.peek, Peekable.next]

/-- Claim C8 (confirmed): over an empty source, after any finite sequence
of calls, `next` returns `none`, `peek` returns `none`, and both
previous-value queries return `none`; absence is the only signal and no
operation fails. -/
theorem c8_empty_source_always_absent (α : Type) (ops : List Op) :
    (PrevPeekable.next (run (PrevPeekable.new ([] : List α)) ops)).1 = none ∧
      (PrevPeekable.peek (run (PrevPeekable.new ([] : List α)) ops)).1 = none ∧
      prevClone (run (PrevPeekable.new ([] : List α)) ops) = none ∧
      prev_peek (run (PrevPeekable.new ([] : List α)) ops) = none := by
  have hinv : emptyInv (run (PrevPeekable.new ([] : List α)) ops) :=
    emptyInv_run ops _ (by simp [emptyInv, PrevPeekable.new])
  exact emptyInv_outputs _ hinv

/-- Claim C9 (confirmed): in every state, `prev` and `prev_peek` agree —
one is present exactly when the other is, and they denote the same value
(the clone returned by `prev` equals the value `prev_peek` points at). -/
theorem c9_prev_agrees_with_prev_peek (s : PrevPeekable α) :
    prevClone s = prev_peek s ∧
      ((prevClone s).isSome ↔ (prev_peek s).isSome) :=
  ⟨rfl, Iff.rfl⟩

/-- Claim C10 (confirmed): after any finite sequence of calls in which
`next` has returned `k` present values, at most `k + 1` items have been
consumed from the raw underlying source — the adapter never reads more
than one element ahead of what it has handed out. -/
theorem c10_consumes_at_most_one_ahead (l : List α) (ops : List Op) :
    consumedFrom l (runCount (PrevPeekable.new l) ops).1
      ≤ (runCount (PrevPeekable.new l) ops).2 + 1 := by
  have hm := runCount_measure ops (PrevPeekable.new l)
  have hb := bVal_le_one (runCount (PrevPeekable.new l) ops).1.iterator
  have hnew : (PrevPeekable.new l).iterator.iter.length = l.length := rfl
  have hbz : Peekable.bVal (PrevPeekable.new l).iterator = 0 := rfl
  rw [hnew, hbz] at hm
  simp only [consumedFrom]
  omega

end PrevIter
